import Mathlib

/-!
Shallow embedding of the libp2p basic connection manager
(go-libp2p-connmgr): the sharded peer table, static tags, the trimmer's
victim selection, the protection registry, and the decaying-tag
subsystem (decay functions, bump functions, the decayer loop's tick and
bump processing, and the non-blocking bump queue).

Go `int` values are modelled as `Int`; timestamps and durations as
`Int` (nanoseconds); Go maps as association lists `List (K × V)` whose
key-uniqueness is carried as explicit `Nodup` hypotheses where a proof
needs it; Go's bounded channel as a list with a capacity bound; the
`float64` coefficient of `LinearDecay` as an exact rational `ℚ`.
-/

namespace ConnMgr

/-! ## Association-list primitives (the shape of Go map operations) -/

variable {K : Type} {V : Type} [DecidableEq K]

/-- `m[k]` as an `Option`: the first binding of `k`. -/
def lookupKey (k : K) : List (K × V) → Option V
  | [] => none
  | (a, b) :: rest => if a = k then some b else lookupKey k rest

/-- `m[k] = v`: replace the binding of `k`, or append it if absent. -/
def setKey (k : K) (v : V) : List (K × V) → List (K × V)
  | [] => [(k, v)]
  | (a, b) :: rest => if a = k then (k, v) :: rest else (a, b) :: setKey k v rest

/-- `delete(m, k)`: remove the first binding of `k`. -/
def eraseKey (k : K) : List (K × V) → List (K × V)
  | [] => []
  | (a, b) :: rest => if a = k then rest else (a, b) :: eraseKey k rest

/-- Sum of `f` over the values of an association list. -/
def sumBy (f : V → Int) (l : List (K × V)) : Int :=
  (l.map (fun kv => f kv.2)).sum

/-- The keys of an association list. -/
def keysOf (l : List (K × V)) : List K := l.map Prod.fst

/-- The contribution of key `k` to `sumBy f`: `f` of its binding, else 0. -/
def lookupContrib (f : V → Int) (k : K) (l : List (K × V)) : Int :=
  ((lookupKey k l).map f).getD 0

/-! ## Data model -/

/-- Peer identifier: an opaque byte string (bytes as `Nat`, reduced mod 256
where the code casts to `byte`). -/
abbrev PeerId : Type := List Nat

/-- A connection handle: carries its remote peer and an identity. -/
structure Conn where
  remote : PeerId
  connId : Nat
deriving DecidableEq

/-- `connmgr.DecayingValue` (core), without the redundant `Tag`/`Peer`
back-references: the live value of one decaying tag on one peer. -/
structure DecayingValue where
  Value : Int
  Added : Int
  LastVisit : Int
deriving DecidableEq

/-- A decay function: from the current `DecayingValue` to the new value and
a removal flag. Functions that read the clock take `now` explicitly. -/
abbrev DecayFn := DecayingValue → Int × Bool

/-! ## The shipped decay and bump functions (part_000, decay-functions file) -/

/-- `NoDecay()`: returns the value unchanged and never removes. -/
def NoDecay : DecayFn := fun value => (value.Value, false)

/-- `FixedDecay(minuend)`: `v := value.Value - minuend; return v, v <= 0`. -/
def FixedDecay (minuend : Int) : DecayFn := fun value =>
  (value.Value - minuend, decide (value.Value - minuend ≤ 0))

/-- `LinearDecay(coef)`: `v := math.Floor(float64(value.Value) * coef);
return int(v), v <= 0`, with the float arithmetic modelled exactly over `ℚ`. -/
def LinearDecay (coef : ℚ) : DecayFn := fun value =>
  let v : Int := Int.floor ((value.Value : ℚ) * coef)
  (v, decide (v ≤ 0))

/-- `ExpireWhenInactive(after)` as the code writes it:
`rm = value.LastVisit.Sub(time.Now()) >= after; return 0, rm`.
The wall-clock read `time.Now()` is the explicit `now` argument. -/
def ExpireWhenInactive (after now : Int) : DecayFn := fun value =>
  (0, decide (value.LastVisit - now ≥ after))

/-- Modelled from the spec: the documented behavior of `ExpireWhenInactive(d)`
(spec §4.7 table): returns `(0, true)` when `now - lastVisit ≥ d`, else
`(value, false)`. Kept separate from the code's `ExpireWhenInactive` so the
two can be compared. -/
def expireWhenInactiveSpec (d now : Int) : DecayFn := fun value =>
  if now - value.LastVisit ≥ d then (0, true) else (value.Value, false)

/-- `SumUnbounded()`: adds the incoming delta to the current value. -/
def SumUnbounded (value : DecayingValue) (delta : Int) : Int :=
  value.Value + delta

/-- `SumBounded(min, max)`: sums and clamps into `[min, max]`. -/
def SumBounded (min max : Int) (value : DecayingValue) (delta : Int) : Int :=
  let v := value.Value + delta
  if v ≥ max then max else if v ≤ min then min else v

/-- `Overwrite()`: replaces the current value with the incoming delta. -/
def Overwrite (value : DecayingValue) (delta : Int) : Int :=
  delta

/-! ## Peer table -/

/-- `peerInfo` (connmgr.go), extended with the `decaying` map that the
decayer loop (decay.go) requires on every peer record; decaying tags are
keyed by their globally-unique name. -/
structure peerInfo where
  id : PeerId
  tags : List (String × Int)
  decaying : List (String × DecayingValue)
  value : Int
  conns : List (Conn × Int)
  firstSeen : Int
deriving DecidableEq

/-- One shard: its `peers` map, as an association list. -/
abbrev Segment := List (PeerId × peerInfo)

/-- `segments.get`: indexes the 256-element shard array by the last byte of
the peer identifier, `s[byte(p[len(p)-1])]`; on the empty identifier the
index expression is out of bounds (a panic), modelled as `none`. -/
def segmentsGet (segs : List Segment) (p : PeerId) : Option Segment :=
  match p.getLast? with
  | none => none
  | some b => segs.get? (b % 256)

/-! ## Static tagging (connmgr.go TagPeer / UntagPeer / UpsertTag) -/

/-- The mutation `TagPeer` applies to a found record:
`pi.value += (val - pi.tags[tag]); pi.tags[tag] = val`. -/
def tagPeerInfo (pi : peerInfo) (tag : String) (val : Int) : peerInfo :=
  { pi with value := pi.value + (val - (lookupKey tag pi.tags).getD 0),
            tags := setKey tag val pi.tags }

/-- `TagPeer` on the peer's shard: untracked peers are logged and left
untouched; no record is auto-created. -/
def TagPeer (seg : Segment) (p : PeerId) (tag : String) (val : Int) : Segment :=
  match lookupKey p seg with
  | none => seg
  | some pi => setKey p (tagPeerInfo pi tag val) seg

/-- The mutation `UntagPeer` applies to a found record:
`pi.value -= pi.tags[tag]; delete(pi.tags, tag)`. -/
def untagPeerInfo (pi : peerInfo) (tag : String) : peerInfo :=
  { pi with value := pi.value - (lookupKey tag pi.tags).getD 0,
            tags := eraseKey tag pi.tags }

/-- `UntagPeer` on the peer's shard; untracked peers are left untouched. -/
def UntagPeer (seg : Segment) (p : PeerId) (tag : String) : Segment :=
  match lookupKey p seg with
  | none => seg
  | some pi => setKey p (untagPeerInfo pi tag) seg

/-- The mutation `UpsertTag` applies to a found record:
`oldval := pi.tags[tag]; newval := upsert(oldval);
pi.value += newval - oldval; pi.tags[tag] = newval`. -/
def upsertTagInfo (pi : peerInfo) (tag : String) (upsert : Int → Int) : peerInfo :=
  let oldval := (lookupKey tag pi.tags).getD 0
  let newval := upsert oldval
  { pi with value := pi.value + (newval - oldval),
            tags := setKey tag newval pi.tags }

/-- `UpsertTag` on the peer's shard; untracked peers are left untouched. -/
def UpsertTag (seg : Segment) (p : PeerId) (tag : String) (upsert : Int → Int) : Segment :=
  match lookupKey p seg with
  | none => seg
  | some pi => setKey p (upsertTagInfo pi tag upsert) seg

/-! ## Notifee (connmgr.go Connected / Disconnected) -/

/-- `Connected`: find or create the record, insert the connection with its
open time, increment `connCount`; a duplicate notification is dropped. -/
def Connected (seg : Segment) (connCount : Int) (now : Int) (c : Conn) :
    Segment × Int :=
  let p := c.remote
  let pinfo := (lookupKey p seg).getD
    { id := p, tags := [], decaying := [], value := 0, conns := [], firstSeen := now }
  match lookupKey c pinfo.conns with
  | some _ => (setKey p pinfo seg, connCount)
  | none =>
      (setKey p { pinfo with conns := setKey c now pinfo.conns } seg, connCount + 1)

/-- `Disconnected`: drop the notification if the peer or the connection is
untracked; otherwise remove the connection and decrement `connCount`.
The deletion condition is modelled from the spec: "if the PeerInfo now has
no connections and no decaying tags, delete the PeerInfo" — the
decay-enabled revision of this function is absent from the sources (the
connmgr.go present is the pre-decay revision, whose record has no
`decaying` field and which deletes on `len(conns) == 0` alone). -/
def Disconnected (seg : Segment) (connCount : Int) (c : Conn) : Segment × Int :=
  match lookupKey c.remote seg with
  | none => (seg, connCount)
  | some cinf =>
    match lookupKey c cinf.conns with
    | none => (seg, connCount)
    | some _ =>
      let conns' := eraseKey c cinf.conns
      if conns' = [] ∧ cinf.decaying = [] then
        (eraseKey c.remote seg, connCount - 1)
      else
        (setKey c.remote { cinf with conns := conns' } seg, connCount - 1)

/-! ## Decayer loop (decay.go process) -/

/-- The decay functions of the registered tags, by tag name. -/
abbrev DecayEnv := String → DecayFn

/-- The bump functions of the registered tags, by tag name. -/
abbrev BumpEnv := String → DecayingValue → Int → Int

/-- The tick's inner loop over one peer's decaying entries: every entry
whose tag is in the `visit` set is decayed; on `rm` the entry is deleted and
its value subtracted, otherwise the entry's value is replaced and
`LastVisit` set to `now`. Returns the new entries and the total score
delta (the Go code adds each entry's delta to `p.value` as it goes; the
total is the same). -/
def tickEntries (env : DecayEnv) (visit : List String) (now : Int) :
    List (String × DecayingValue) → List (String × DecayingValue) × Int
  | [] => ([], 0)
  | (t, v) :: rest =>
    let r := tickEntries env visit now rest
    if t ∈ visit then
      match env t v with
      | (_, true) => (r.1, r.2 - v.Value)
      | (a, false) => ((t, { v with Value := a, LastVisit := now }) :: r.1,
                       r.2 + (a - v.Value))
    else ((t, v) :: r.1, r.2)

/-- One peer's decay tick: new decaying entries, and the cached score
adjusted by the accumulated delta. -/
def tickPeer (env : DecayEnv) (visit : List String) (now : Int)
    (pi : peerInfo) : peerInfo :=
  let r := tickEntries env visit now pi.decaying
  { pi with decaying := r.1, value := pi.value + r.2 }

/-- The tick applied to every peer of a shard. -/
def tickSegment (env : DecayEnv) (visit : List String) (now : Int)
    (seg : Segment) : Segment :=
  seg.map (fun e => (e.1, tickPeer env visit now e.2))

/-- Modelled from the spec: `segment.tagInfoFor` — referenced by the bump
branch of the decayer loop but absent from the sources — finds the peer's
record or creates a fresh one ("find or create the DecayingValue for
(peer, tag) with starting value 0" presupposes a record to hang it on). -/
def tagInfoFor (p : PeerId) (now : Int) (seg : Segment) : peerInfo :=
  (lookupKey p seg).getD
    { id := p, tags := [], decaying := [], value := 0, conns := [], firstSeen := now }

/-- The bump branch of the decayer loop: find or create the `DecayingValue`
for the tag (starting value 0), apply the tag's bump function, stamp
`LastVisit`, and adjust the cached score by the signed change. -/
def bumpPeerInfo (env : BumpEnv) (tag : String) (delta : Int) (now : Int)
    (pi : peerInfo) : peerInfo :=
  let v := (lookupKey tag pi.decaying).getD ⟨0, now, now⟩
  let newVal := env tag v delta
  { pi with value := pi.value + (newVal - v.Value),
            decaying := setKey tag { v with Value := newVal, LastVisit := now } pi.decaying }

/-- A dequeued bump command applied to the peer's shard. -/
def processBump (env : BumpEnv) (p : PeerId) (tag : String) (delta : Int)
    (now : Int) (seg : Segment) : Segment :=
  setKey p (bumpPeerInfo env tag delta now (tagInfoFor p now seg)) seg

/-! ## Trimmer (connmgr.go getConnsToClose) -/

/-- The connection-manager state read by the trimmer. -/
structure BasicConnMgr where
  lowWater : Int
  highWater : Int
  gracePeriod : Int
  connCount : Int
  segments : List Segment
  protectedPeers : List (PeerId × List String)

/-- Snapshot step of victim selection: every record of every shard whose
peer is not present in the protection registry. -/
def candidatesOf (cm : BasicConnMgr) : List peerInfo :=
  ((cm.segments.map
    (fun s => s.filter (fun e => (lookupKey e.1 cm.protectedPeers).isNone))).flatten).map
    Prod.snd

/-- Insertion step of the ascending sort by cached score
(`candidates[i].value < candidates[j].value`). -/
def insertByValue (pi : peerInfo) : List peerInfo → List peerInfo
  | [] => [pi]
  | q :: rest =>
    if pi.value < q.value then pi :: q :: rest else q :: insertByValue pi rest

/-- Sort candidates in ascending order of cached score (ties in
implementation-defined order, as the spec allows). -/
def sortByValue : List peerInfo → List peerInfo
  | [] => []
  | pi :: rest => insertByValue pi (sortByValue rest)

/-- The selection walk: skip any candidate still in its grace period
(`firstSeen + gracePeriod > now`); otherwise take all its connections and
lower `target` by their number; stop once `target ≤ 0`. -/
def collectVictims (now grace : Int) : Int → List peerInfo → List Conn
  | _, [] => []
  | target, pi :: rest =>
    if pi.firstSeen + grace > now then collectVictims now grace target rest
    else
      let cs := pi.conns.map Prod.fst
      let target' := target - (cs.length : Int)
      if target' ≤ 0 then cs else cs ++ collectVictims now grace target' rest

/-- `getConnsToClose`: no victims when trimming is disabled
(`lowWater == 0 || highWater == 0`) or the count is at/below the low water
mark; otherwise snapshot, sort, and walk. `TrimOpenConns` closes exactly
this list. -/
def getConnsToClose (cm : BasicConnMgr) (now : Int) : List Conn :=
  if cm.lowWater = 0 ∨ cm.highWater = 0 then []
  else if cm.connCount ≤ cm.lowWater then []
  else collectVictims now cm.gracePeriod (cm.connCount - cm.lowWater)
    (sortByValue (candidatesOf cm))

/-! ## Bump queue (decay.go Bump) -/

/-- The bounded bump channel's capacity (`make(chan bumpCmd, 128)`). -/
def bumpChCap : Nat := 128

/-- A queued bump command. -/
structure bumpCmd where
  peer : PeerId
  tag : String
  delta : Int
deriving DecidableEq

/-- The error surface of `Bump`. -/
inductive BumpError where
  | queueFull
deriving DecidableEq

/-- `Bump`: non-blocking send on the bounded bump channel; enqueues and
returns no error when the buffer has room, otherwise drops the command and
returns the queue-full error, the queue (and a fortiori every tag value)
unchanged. -/
def Bump (q : List bumpCmd) (bmp : bumpCmd) : List bumpCmd × Option BumpError :=
  if q.length < bumpChCap then (q ++ [bmp], none) else (q, some .queueFull)

/-! ## Invariants -/

/-- Invariant I1 on one record: the cached score equals the sum of the
static tag values plus the sum of the decaying-tag values. -/
def ScoreInv (pi : peerInfo) : Prop :=
  pi.value = sumBy (fun n => n) pi.tags + sumBy (fun v => v.Value) pi.decaying

instance (pi : peerInfo) : Decidable (ScoreInv pi) :=
  inferInstanceAs (Decidable (_ = _))

/-- I1 for every record of a shard. -/
def SegScoreInv (seg : Segment) : Prop := ∀ e ∈ seg, ScoreInv e.2

instance (seg : Segment) : Decidable (SegScoreInv seg) :=
  inferInstanceAs (Decidable (∀ e ∈ seg, ScoreInv e.2))

/-- Well-formedness a Go map gives for free: key uniqueness of each
record's tag and decaying maps. -/
def SegWF (seg : Segment) : Prop :=
  ∀ e ∈ seg, (keysOf e.2.tags).Nodup ∧ (keysOf e.2.decaying).Nodup

instance (seg : Segment) : Decidable (SegWF seg) :=
  inferInstanceAs (Decidable (∀ e ∈ seg, _ ∧ _))

/-! ## Association-list lemmas -/

theorem lookupKey_eq_none_of_not_mem {k : K} {l : List (K × V)}
    (h : k ∉ keysOf l) : lookupKey k l = (none : Option V) := by
  induction l with
  | nil => rfl
  | cons hd tl ih =>
    obtain ⟨a, b⟩ := hd
    simp only [keysOf, List.map_cons, List.mem_cons] at h
    push_neg at h
    have hak : ¬ a = k := fun he => h.1 he.symm
    simp only [lookupKey, if_neg hak]
    exact ih h.2

theorem mem_of_lookupKey_eq_some {k : K} {v : V} {l : List (K × V)}
    (h : lookupKey k l = some v) : (k, v) ∈ l := by
  induction l with
  | nil => simp [lookupKey] at h
  | cons hd tl ih =>
    by_cases he : hd.1 = k
    · obtain ⟨a, b⟩ := hd
      simp only [lookupKey, if_pos he] at h
      subst he
      cases h
      exact List.mem_cons_self _ _
    · obtain ⟨a, b⟩ := hd
      simp only [lookupKey, if_neg he] at h
      exact List.mem_cons_of_mem _ (ih h)

theorem mem_setKey {k : K} {v : V} {x : K × V} {l : List (K × V)}
    (h : x ∈ setKey k v l) : x = (k, v) ∨ x ∈ l := by
  induction l with
  | nil => simpa [setKey] using h
  | cons hd tl ih =>
    obtain ⟨a, b⟩ := hd
    by_cases he : a = k
    · simp only [setKey, if_pos he, List.mem_cons] at h
      rcases h with h | h
      · exact Or.inl h
      · exact Or.inr (List.mem_cons_of_mem _ h)
    · simp only [setKey, if_neg he, List.mem_cons] at h
      rcases h with h | h
      · exact Or.inr (by simp [h])
      · rcases ih h with h' | h'
        · exact Or.inl h'
        · exact Or.inr (List.mem_cons_of_mem _ h')

theorem lookupKey_setKey_self (k : K) (v : V) (l : List (K × V)) :
    lookupKey k (setKey k v l) = some v := by
  induction l with
  | nil => simp [setKey, lookupKey]
  | cons hd tl ih =>
    obtain ⟨a, b⟩ := hd
    by_cases he : a = k
    · simp [setKey, if_pos he, lookupKey]
    · simp [setKey, if_neg he, lookupKey, if_neg he, ih]

theorem lookupKey_eraseKey_self {k : K} {l : List (K × V)}
    (h : (keysOf l).Nodup) : lookupKey k (eraseKey k l) = (none : Option V) := by
  induction l with
  | nil => rfl
  | cons hd tl ih =>
    obtain ⟨a, b⟩ := hd
    simp only [keysOf, List.map_cons, List.nodup_cons] at h
    by_cases he : a = k
    · subst he
      simp only [eraseKey, if_pos rfl]
      exact lookupKey_eq_none_of_not_mem h.1
    · simp only [eraseKey, if_neg he, lookupKey, if_neg he]
      exact ih h.2

theorem sumBy_setKey (f : V → Int) (k : K) (v : V) (l : List (K × V))
    (h : (keysOf l).Nodup) :
    sumBy f (setKey k v l) = sumBy f l + f v - lookupContrib f k l := by
  induction l with
  | nil => simp [setKey, sumBy, lookupContrib, lookupKey]
  | cons hd tl ih =>
    obtain ⟨a, b⟩ := hd
    simp only [keysOf, List.map_cons, List.nodup_cons] at h
    by_cases he : a = k
    · simp only [setKey, if_pos he, sumBy, List.map_cons, List.sum_cons,
        lookupContrib, lookupKey, if_pos he, Option.map_some', Option.getD_some]
      ring
    · simp only [setKey, if_neg he, sumBy, List.map_cons, List.sum_cons,
        lookupContrib, lookupKey, if_neg he]
      have := ih h.2
      simp only [sumBy, lookupContrib] at this
      omega

theorem sumBy_eraseKey (f : V → Int) (k : K) (l : List (K × V))
    (h : (keysOf l).Nodup) :
    sumBy f (eraseKey k l) = sumBy f l - lookupContrib f k l := by
  induction l with
  | nil => simp [eraseKey, sumBy, lookupContrib, lookupKey]
  | cons hd tl ih =>
    obtain ⟨a, b⟩ := hd
    simp only [keysOf, List.map_cons, List.nodup_cons] at h
    by_cases he : a = k
    · simp only [eraseKey, if_pos he, sumBy, List.map_cons, List.sum_cons,
        lookupContrib, lookupKey, if_pos he, Option.map_some', Option.getD_some]
      ring
    · simp only [eraseKey, if_neg he, sumBy, List.map_cons, List.sum_cons,
        lookupContrib, lookupKey, if_neg he]
      have := ih h.2
      simp only [sumBy, lookupContrib] at this
      omega

/-! ## C1, C9: properties of the shipped decay functions -/

/-- C1: the claim says `ExpireWhenInactive(d)` returns `(0, true)` when
`now - lastVisit ≥ d` and `(value, false)` otherwise. The code computes the
removal condition as `lastVisit - now ≥ d` (operands reversed) and returns
`0` for the kept value; at `d = 100, now = 5, value = 10, lastVisit = 0` the
code yields `(0, false)` where the documented behavior is `(10, false)`, and
at `now = 200` the code yields `(0, false)` where the documented behavior is
`(0, true)`: the tag's value is zeroed on the first tick and the tag is never
removed, contradicting the function's own doc comment ("expires a tag after a
certain period of no bumps"). -/
theorem C1_ExpireWhenInactive_divergence :
    ExpireWhenInactive 100 5 ⟨10, 0, 0⟩ = (0, false) ∧
    expireWhenInactiveSpec 100 5 ⟨10, 0, 0⟩ = (10, false) ∧
    ExpireWhenInactive 100 200 ⟨10, 0, 0⟩ = (0, false) ∧
    expireWhenInactiveSpec 100 200 ⟨10, 0, 0⟩ = (0, true) := by
  decide

/-- C9 counterexample: monotonicity of the decay step fails for an arbitrary
minuend or coefficient: `FixedDecay (-1)` raises the value 5 to 6, and
`LinearDecay (1/2)` raises the (negative) value −10 to −5, so the claim read
over all parameters and values is false on the code. -/
theorem C9_monotone_counterexample :
    (FixedDecay (-1) ⟨5, 0, 0⟩ = (6, false) ∧ ¬ ((6 : Int) ≤ 5)) ∧
    (LinearDecay (1/2) ⟨-10, 0, 0⟩ = (-5, true) ∧ ¬ ((-5 : Int) ≤ -10)) ∧
    (LinearDecay 2 ⟨10, 0, 0⟩ = (20, false) ∧ ¬ ((20 : Int) ≤ 10)) := by
  refine ⟨⟨by decide, by decide⟩, ⟨?_, by decide⟩, ⟨?_, by decide⟩⟩
  · simp only [LinearDecay]
    norm_num
  · simp only [LinearDecay]
    norm_num

/-- C9 amended: the decayed value never exceeds the current value provided
the `FixedDecay` minuend is nonnegative, and the `LinearDecay` coefficient
is at most 1 and the current value is nonnegative; hence repeated ticks
never increase a decaying tag's value in those regimes. -/
theorem C9_decay_monotone (m : Int) (k : ℚ) (v : DecayingValue) :
    (0 ≤ m → (FixedDecay m v).1 ≤ v.Value) ∧
    (k ≤ 1 → 0 ≤ v.Value → (LinearDecay k v).1 ≤ v.Value) := by
  constructor
  · intro hm
    simp only [FixedDecay]
    omega
  · intro hk1 hv
    simp only [LinearDecay]
    have hvq : (0 : ℚ) ≤ (v.Value : ℚ) := by exact_mod_cast hv
    have h1 : (v.Value : ℚ) * k ≤ (v.Value : ℚ) := by
      calc (v.Value : ℚ) * k ≤ (v.Value : ℚ) * 1 :=
            mul_le_mul_of_nonneg_left hk1 hvq
        _ = (v.Value : ℚ) := mul_one _
    have h2 : Int.floor ((v.Value : ℚ) * k) ≤ Int.floor ((v.Value : ℚ)) :=
      Int.floor_le_floor h1
    simpa using h2

/-- C9 witness: the amended monotonicity theorem applied at `m = 1`,
`k = 1`, `v = 10`. -/
theorem C9_decay_monotone_witness :
    (FixedDecay 1 ⟨10, 0, 0⟩).1 ≤ 10 ∧ (LinearDecay 1 ⟨10, 0, 0⟩).1 ≤ 10 :=
  ⟨(C9_decay_monotone 1 1 ⟨10, 0, 0⟩).1 (by decide),
   (C9_decay_monotone 1 1 ⟨10, 0, 0⟩).2 (le_refl 1) (by decide)⟩

/-! ## Score-invariant preservation (C3) -/

theorem scoreInv_tagPeerInfo {pi : peerInfo} (tag : String) (val : Int)
    (hnd : (keysOf pi.tags).Nodup) (hI : ScoreInv pi) :
    ScoreInv (tagPeerInfo pi tag val) := by
  unfold ScoreInv tagPeerInfo
  simp only
  rw [sumBy_setKey _ _ _ _ hnd]
  unfold ScoreInv at hI
  cases h : lookupKey tag pi.tags <;>
    simp only [lookupContrib, h, Option.map_some', Option.map_none',
      Option.getD_some, Option.getD_none] <;> omega

theorem scoreInv_untagPeerInfo {pi : peerInfo} (tag : String)
    (hnd : (keysOf pi.tags).Nodup) (hI : ScoreInv pi) :
    ScoreInv (untagPeerInfo pi tag) := by
  unfold ScoreInv untagPeerInfo
  simp only
  rw [sumBy_eraseKey _ _ _ hnd]
  unfold ScoreInv at hI
  cases h : lookupKey tag pi.tags <;>
    simp only [lookupContrib, h, Option.map_some', Option.map_none',
      Option.getD_some, Option.getD_none] <;> omega

theorem scoreInv_upsertTagInfo {pi : peerInfo} (tag : String) (f : Int → Int)
    (hnd : (keysOf pi.tags).Nodup) (hI : ScoreInv pi) :
    ScoreInv (upsertTagInfo pi tag f) := by
  unfold ScoreInv upsertTagInfo
  simp only
  rw [sumBy_setKey _ _ _ _ hnd]
  unfold ScoreInv at hI
  cases h : lookupKey tag pi.tags <;>
    simp only [lookupContrib, h, Option.map_some', Option.map_none',
      Option.getD_some, Option.getD_none] <;> omega

theorem tickEntries_sum (env : DecayEnv) (visit : List String) (now : Int)
    (l : List (String × DecayingValue)) :
    sumBy (fun v => v.Value) (tickEntries env visit now l).1 =
      sumBy (fun v => v.Value) l + (tickEntries env visit now l).2 := by
  induction l with
  | nil => simp [tickEntries, sumBy]
  | cons hd tl ih =>
    obtain ⟨t, v⟩ := hd
    simp only [tickEntries]
    by_cases hv : t ∈ visit
    · simp only [if_pos hv]
      cases henv : env t v with
      | mk a rm =>
        cases rm
        · simp only [sumBy, List.map_cons, List.sum_cons]
          simp only [sumBy] at ih
          omega
        · simp only [sumBy, List.map_cons, List.sum_cons]
          simp only [sumBy] at ih
          omega
    · simp only [if_neg hv, sumBy, List.map_cons, List.sum_cons]
      simp only [sumBy] at ih
      omega

theorem scoreInv_tickPeer (env : DecayEnv) (visit : List String) (now : Int)
    {pi : peerInfo} (hI : ScoreInv pi) :
    ScoreInv (tickPeer env visit now pi) := by
  unfold ScoreInv tickPeer
  simp only
  rw [tickEntries_sum]
  unfold ScoreInv at hI
  omega

theorem scoreInv_bumpPeerInfo (env : BumpEnv) (tag : String) (delta now : Int)
    {pi : peerInfo} (hnd : (keysOf pi.decaying).Nodup) (hI : ScoreInv pi) :
    ScoreInv (bumpPeerInfo env tag delta now pi) := by
  unfold ScoreInv bumpPeerInfo
  simp only
  rw [sumBy_setKey _ _ _ _ hnd]
  unfold ScoreInv at hI
  cases h : lookupKey tag pi.decaying <;>
    simp only [lookupContrib, h, Option.map_some', Option.map_none',
      Option.getD_some, Option.getD_none] <;> omega

/-- C3: after each public tagging operation and after the decayer loop
processes a decay tick or a bump command, every tracked record's cached
score still equals the sum of its static tag values plus the sum of its
decaying-tag values (invariant I1), given the key-uniqueness of the Go
maps. -/
theorem C3_score_invariant (seg : Segment) (p : PeerId) (tag : String)
    (val : Int) (f : Int → Int) (env : DecayEnv) (benv : BumpEnv)
    (visit : List String) (now delta : Int)
    (hwf : SegWF seg) (hI : SegScoreInv seg) :
    SegScoreInv (TagPeer seg p tag val) ∧
    SegScoreInv (UntagPeer seg p tag) ∧
    SegScoreInv (UpsertTag seg p tag f) ∧
    SegScoreInv (tickSegment env visit now seg) ∧
    SegScoreInv (processBump benv p tag delta now seg) := by
  refine ⟨?_, ?_, ?_, ?_, ?_⟩
  · unfold TagPeer
    cases hl : lookupKey p seg with
    | none => exact hI
    | some pi =>
      intro e he
      rcases mem_setKey he with he' | he'
      · subst he'
        exact scoreInv_tagPeerInfo tag val
          (hwf _ (mem_of_lookupKey_eq_some hl)).1 (hI _ (mem_of_lookupKey_eq_some hl))
      · exact hI _ he'
  · unfold UntagPeer
    cases hl : lookupKey p seg with
    | none => exact hI
    | some pi =>
      intro e he
      rcases mem_setKey he with he' | he'
      · subst he'
        exact scoreInv_untagPeerInfo tag
          (hwf _ (mem_of_lookupKey_eq_some hl)).1 (hI _ (mem_of_lookupKey_eq_some hl))
      · exact hI _ he'
  · unfold UpsertTag
    cases hl : lookupKey p seg with
    | none => exact hI
    | some pi =>
      intro e he
      rcases mem_setKey he with he' | he'
      · subst he'
        exact scoreInv_upsertTagInfo tag f
          (hwf _ (mem_of_lookupKey_eq_some hl)).1 (hI _ (mem_of_lookupKey_eq_some hl))
      · exact hI _ he'
  · intro e he
    unfold tickSegment at he
    rw [List.mem_map] at he
    obtain ⟨a, ha, rfl⟩ := he
    exact scoreInv_tickPeer env visit now (hI _ ha)
  · intro e he
    unfold processBump at he
    rcases mem_setKey he with he' | he'
    · subst he'
      unfold tagInfoFor
      cases hl : lookupKey p seg with
      | none =>
        simp only [Option.getD_none]
        apply scoreInv_bumpPeerInfo
        · simp [keysOf]
        · simp [ScoreInv, sumBy]
      | some pi =>
        simp only [Option.getD_some]
        exact scoreInv_bumpPeerInfo benv tag delta now
          (hwf _ (mem_of_lookupKey_eq_some hl)).2 (hI _ (mem_of_lookupKey_eq_some hl))
    · exact hI _ he'

/-- C3 witness: the invariant theorem applied to a one-peer shard holding a
static tag of 3 and a decaying tag of value 4, cached score 7. -/
theorem C3_score_invariant_witness :
    SegScoreInv (TagPeer [([0], ⟨[0], [("a", 3)], [("d", ⟨4, 0, 0⟩)], 7, [], 0⟩)] [0] "a" 5) ∧
    SegScoreInv (UntagPeer [([0], ⟨[0], [("a", 3)], [("d", ⟨4, 0, 0⟩)], 7, [], 0⟩)] [0] "a") ∧
    SegScoreInv (UpsertTag [([0], ⟨[0], [("a", 3)], [("d", ⟨4, 0, 0⟩)], 7, [], 0⟩)] [0] "a" (fun n => n + 1)) ∧
    SegScoreInv (tickSegment (fun _ => FixedDecay 1) ["d"] 10 [([0], ⟨[0], [("a", 3)], [("d", ⟨4, 0, 0⟩)], 7, [], 0⟩)]) ∧
    SegScoreInv (processBump (fun _ => SumUnbounded) [0] "a" 2 10 [([0], ⟨[0], [("a", 3)], [("d", ⟨4, 0, 0⟩)], 7, [], 0⟩)]) :=
  C3_score_invariant [([0], ⟨[0], [("a", 3)], [("d", ⟨4, 0, 0⟩)], 7, [], 0⟩)]
    [0] "a" 5 (fun n => n + 1) (fun _ => FixedDecay 1) (fun _ => SumUnbounded)
    ["d"] 10 2 (by decide) (by decide)

/-! ## C2: Disconnected's housekeeping -/

/-- C2: for a tracked peer and a tracked connection, `Disconnected` removes
the connection, decrements the connection counter, and deletes the record
exactly when the remaining connection map and the decaying map are both
empty; a record with no connections left but a non-empty decaying map stays
in its shard. -/
theorem C2_Disconnected_housekeeping (seg : Segment) (n : Int) (c : Conn)
    (cinf : peerInfo)
    (hseg : (keysOf seg).Nodup)
    (hconns : (keysOf cinf.conns).Nodup)
    (hfound : lookupKey c.remote seg = some cinf)
    (htracked : (lookupKey c cinf.conns).isSome) :
    (Disconnected seg n c).2 = n - 1 ∧
    lookupKey c (eraseKey c cinf.conns) = none ∧
    (eraseKey c cinf.conns = [] ∧ cinf.decaying = [] →
      lookupKey c.remote (Disconnected seg n c).1 = none) ∧
    (eraseKey c cinf.conns ≠ [] ∨ cinf.decaying ≠ [] →
      lookupKey c.remote (Disconnected seg n c).1 =
        some { cinf with conns := eraseKey c cinf.conns }) := by
  obtain ⟨w, hw⟩ := Option.isSome_iff_exists.mp htracked
  refine ⟨?_, lookupKey_eraseKey_self hconns, ?_, ?_⟩
  · simp only [Disconnected, hfound, hw]
    split <;> rfl
  · intro hemp
    simp only [Disconnected, hfound, hw]
    rw [if_pos hemp]
    exact lookupKey_eraseKey_self hseg
  · intro hne
    simp only [Disconnected, hfound, hw]
    rw [if_neg (by tauto)]
    exact lookupKey_setKey_self _ _ _

/-- C2 witness: a peer with one connection and one decaying value loses the
connection but keeps its record. -/
theorem C2_Disconnected_housekeeping_witness :
    (Disconnected [([0], ⟨[0], [], [("d", ⟨1, 0, 0⟩)], 1, [(⟨[0], 0⟩, 0)], 0⟩)] 1 ⟨[0], 0⟩).2 = 0 ∧
    lookupKey (⟨[0], 0⟩ : Conn) (eraseKey ⟨[0], 0⟩ [((⟨[0], 0⟩ : Conn), (0 : Int))]) = none ∧
    (eraseKey (⟨[0], 0⟩ : Conn) [((⟨[0], 0⟩ : Conn), (0 : Int))] = [] ∧
        [("d", (⟨1, 0, 0⟩ : DecayingValue))] = [] →
      lookupKey ([0] : PeerId)
        (Disconnected [([0], ⟨[0], [], [("d", ⟨1, 0, 0⟩)], 1, [(⟨[0], 0⟩, 0)], 0⟩)] 1 ⟨[0], 0⟩).1 = none) ∧
    (eraseKey (⟨[0], 0⟩ : Conn) [((⟨[0], 0⟩ : Conn), (0 : Int))] ≠ [] ∨
        [("d", (⟨1, 0, 0⟩ : DecayingValue))] ≠ [] →
      lookupKey ([0] : PeerId)
        (Disconnected [([0], ⟨[0], [], [("d", ⟨1, 0, 0⟩)], 1, [(⟨[0], 0⟩, 0)], 0⟩)] 1 ⟨[0], 0⟩).1 =
        some ⟨[0], [], [("d", ⟨1, 0, 0⟩)], 1, eraseKey ⟨[0], 0⟩ [(⟨[0], 0⟩, 0)], 0⟩) :=
  C2_Disconnected_housekeeping _ 1 ⟨[0], 0⟩ ⟨[0], [], [("d", ⟨1, 0, 0⟩)], 1, [(⟨[0], 0⟩, 0)], 0⟩
    (by decide) (by decide) (by decide) (by decide)

/-! ## C6: trimming disabled or below the low-water mark -/

/-- C6: victim selection yields nothing when `lowWater == 0` or
`highWater == 0` (trimming disabled), and likewise when the current
connection count is at or below `lowWater`; `TrimOpenConns`, which closes
exactly this list, then closes nothing. -/
theorem C6_no_victims_when_disabled_or_low (cm : BasicConnMgr) (now : Int) :
    ((cm.lowWater = 0 ∨ cm.highWater = 0) → getConnsToClose cm now = []) ∧
    (cm.connCount ≤ cm.lowWater → getConnsToClose cm now = []) := by
  constructor
  · intro h
    unfold getConnsToClose
    rw [if_pos h]
  · intro h
    unfold getConnsToClose
    by_cases hd : cm.lowWater = 0 ∨ cm.highWater = 0
    · rw [if_pos hd]
    · rw [if_neg hd, if_pos h]

/-- C6 witness: a manager with `lowWater = 0` and one with
`connCount ≤ lowWater` both select no victims. -/
theorem C6_no_victims_witness :
    getConnsToClose ⟨0, 5, 0, 9, [], []⟩ 0 = [] ∧
    getConnsToClose ⟨2, 5, 0, 2, [], []⟩ 0 = [] :=
  ⟨(C6_no_victims_when_disabled_or_low ⟨0, 5, 0, 9, [], []⟩ 0).1 (Or.inl rfl),
   (C6_no_victims_when_disabled_or_low ⟨2, 5, 0, 2, [], []⟩ 0).2 (by decide)⟩

/-! ## C7: unknown peers are never auto-created -/

/-- C7: `TagPeer`, `UntagPeer` and `UpsertTag` on a peer absent from its
shard return with the shard — and hence the whole state — unchanged; no
record is created for the unknown peer. -/
theorem C7_untracked_tagging_noop (seg : Segment) (p : PeerId) (tag : String)
    (val : Int) (f : Int → Int) (h : lookupKey p seg = none) :
    TagPeer seg p tag val = seg ∧
    UntagPeer seg p tag = seg ∧
    UpsertTag seg p tag f = seg := by
  unfold TagPeer UntagPeer UpsertTag
  rw [h]
  exact ⟨rfl, rfl, rfl⟩

/-- C7 witness: tagging an unknown peer on a one-peer shard is a no-op. -/
theorem C7_untracked_tagging_noop_witness :
    TagPeer [([0], ⟨[0], [], [], 0, [], 0⟩)] [1] "a" 5 = [([0], ⟨[0], [], [], 0, [], 0⟩)] ∧
    UntagPeer [([0], ⟨[0], [], [], 0, [], 0⟩)] [1] "a" = [([0], ⟨[0], [], [], 0, [], 0⟩)] ∧
    UpsertTag [([0], ⟨[0], [], [], 0, [], 0⟩)] [1] "a" (fun n => n + 1) = [([0], ⟨[0], [], [], 0, [], 0⟩)] :=
  C7_untracked_tagging_noop _ [1] "a" 5 (fun n => n + 1) (by decide)

/-! ## C8: Bump never blocks -/

/-- C8: `Bump` is a non-blocking send on the bounded bump channel: with
free capacity the command is enqueued and no error returned; on a saturated
channel the command is dropped, the queue-full error is returned, and the
queue — hence every tag value, which only the decayer loop mutates — is
unchanged. -/
theorem C8_Bump_nonblocking (q : List bumpCmd) (bmp : bumpCmd) :
    (q.length < bumpChCap → Bump q bmp = (q ++ [bmp], none)) ∧
    (¬ q.length < bumpChCap → Bump q bmp = (q, some .queueFull)) := by
  constructor
  · intro h
    unfold Bump
    rw [if_pos h]
  · intro h
    unfold Bump
    rw [if_neg h]

/-- C8 witness: an empty queue accepts the command; a full queue of 128
commands drops it with the queue-full error. -/
theorem C8_Bump_nonblocking_witness :
    Bump [] ⟨[0], "d", 1⟩ = ([⟨[0], "d", 1⟩], none) ∧
    Bump (List.replicate 128 ⟨[0], "d", 1⟩) ⟨[0], "d", 1⟩ =
      (List.replicate 128 ⟨[0], "d", 1⟩, some .queueFull) :=
  ⟨(C8_Bump_nonblocking [] ⟨[0], "d", 1⟩).1 (by decide),
   (C8_Bump_nonblocking (List.replicate 128 ⟨[0], "d", 1⟩) ⟨[0], "d", 1⟩).2 (by
      simp [bumpChCap])⟩

/-! ## Victim-selection lemmas (C4, C5) -/

theorem mem_insertByValue {x pi : peerInfo} {l : List peerInfo}
    (h : x ∈ insertByValue pi l) : x = pi ∨ x ∈ l := by
  induction l with
  | nil => simpa [insertByValue] using h
  | cons q rest ih =>
    simp only [insertByValue] at h
    split at h
    · simp only [List.mem_cons] at h
      rcases h with h | h | h
      · exact Or.inl h
      · exact Or.inr (by simp [h])
      · exact Or.inr (List.mem_cons_of_mem _ h)
    · simp only [List.mem_cons] at h
      rcases h with h | h
      · exact Or.inr (by simp [h])
      · rcases ih h with h' | h'
        · exact Or.inl h'
        · exact Or.inr (List.mem_cons_of_mem _ h')

theorem mem_sortByValue {x : peerInfo} {l : List peerInfo}
    (h : x ∈ sortByValue l) : x ∈ l := by
  induction l with
  | nil => simpa [sortByValue] using h
  | cons pi rest ih =>
    simp only [sortByValue] at h
    rcases mem_insertByValue h with h' | h'
    · simp [h']
    · exact List.mem_cons_of_mem _ (ih h')

theorem collectVictims_src {now grace : Int} {c : Conn} :
    ∀ {target : Int} {l : List peerInfo}, c ∈ collectVictims now grace target l →
      ∃ pi ∈ l, c ∈ pi.conns.map Prod.fst ∧ ¬ pi.firstSeen + grace > now := by
  intro target l
  induction l generalizing target with
  | nil => intro h; simp [collectVictims] at h
  | cons pi rest ih =>
    intro h
    simp only [collectVictims] at h
    split at h
    · obtain ⟨q, hq, hc⟩ := ih h
      exact ⟨q, List.mem_cons_of_mem _ hq, hc⟩
    · split at h
      · exact ⟨pi, List.mem_cons_self _ _, h, by assumption⟩
      · rcases List.mem_append.mp h with h' | h'
        · exact ⟨pi, List.mem_cons_self _ _, h', by assumption⟩
        · obtain ⟨q, hq, hc⟩ := ih h'
          exact ⟨q, List.mem_cons_of_mem _ hq, hc⟩

theorem mem_candidatesOf {cm : BasicConnMgr} {pi : peerInfo}
    (h : pi ∈ candidatesOf cm) :
    ∃ s ∈ cm.segments, ∃ e ∈ s, e.2 = pi ∧
      (lookupKey e.1 cm.protectedPeers).isNone := by
  unfold candidatesOf at h
  rw [List.mem_map] at h
  obtain ⟨e, he, rfl⟩ := h
  rw [List.mem_flatten] at he
  obtain ⟨fs, hfs, hefs⟩ := he
  rw [List.mem_map] at hfs
  obtain ⟨s, hs, rfl⟩ := hfs
  rw [List.mem_filter] at hefs
  exact ⟨s, hs, e, hefs.1, rfl, by simpa using hefs.2⟩

/-- Where a victim connection comes from: a non-protected, out-of-grace
record of some shard that lists it among its connections. -/
theorem getConnsToClose_src {cm : BasicConnMgr} {now : Int} {c : Conn}
    (h : c ∈ getConnsToClose cm now) :
    ∃ s ∈ cm.segments, ∃ e ∈ s, c ∈ e.2.conns.map Prod.fst ∧
      (lookupKey e.1 cm.protectedPeers).isNone ∧
      ¬ e.2.firstSeen + cm.gracePeriod > now := by
  unfold getConnsToClose at h
  split at h
  · simp at h
  · split at h
    · simp at h
    · obtain ⟨pi, hpi, hc, hg⟩ := collectVictims_src h
      obtain ⟨s, hs, e, he, rfl, hprot⟩ := mem_candidatesOf (mem_sortByValue hpi)
      exact ⟨s, hs, e, he, hc, hprot, hg⟩

/-- C4: a peer present in the protection registry with a non-empty reason
set at snapshot time is excluded from the candidate list, so none of its
connections is selected as a trim victim (assuming each record's
connections carry that record's peer as their remote, as `Connected`
guarantees). -/
theorem C4_protected_never_victim (cm : BasicConnMgr) (now : Int)
    (p : PeerId) (rs : List String)
    (hconn : ∀ s ∈ cm.segments, ∀ e ∈ s, ∀ ce ∈ e.2.conns, ce.1.remote = e.1)
    (hp : lookupKey p cm.protectedPeers = some rs) (hrs : rs ≠ []) :
    ∀ c ∈ getConnsToClose cm now, c.remote ≠ p := by
  intro c hc hrem
  obtain ⟨s, hs, e, he, hcc, hprot, -⟩ := getConnsToClose_src hc
  rw [List.mem_map] at hcc
  obtain ⟨ce, hce, rfl⟩ := hcc
  have hkey : ce.1.remote = e.1 := hconn s hs e he ce hce
  rw [hrem] at hkey
  rw [← hkey] at hprot
  rw [hp] at hprot
  simp at hprot

/-- C4 witness: with peer `[0]` protected for reason "keep", the selected
victim `(remote [1], id 1)` of the concrete two-peer state is not a
connection of `[0]`. -/
theorem C4_protected_never_victim_witness :
    (⟨[1], 1⟩ : Conn).remote ≠ [0] :=
  C4_protected_never_victim
    ⟨1, 1, 0, 3,
      [[([0], ⟨[0], [], [], 0, [(⟨[0], 0⟩, 0)], 0⟩),
        ([1], ⟨[1], [], [], 5, [(⟨[1], 1⟩, 0)], 0⟩)]],
      [([0], ["keep"])]⟩ 10 [0] ["keep"]
    (by decide) (by decide) (by decide) ⟨[1], 1⟩ (by decide)

/-- C5: a peer whose every table entry is still within the grace period
(`firstSeen + gracePeriod > now`) contributes no victim connections to any
trim at time `now`. -/
theorem C5_grace_never_victim (cm : BasicConnMgr) (now : Int) (p : PeerId)
    (hconn : ∀ s ∈ cm.segments, ∀ e ∈ s, ∀ ce ∈ e.2.conns, ce.1.remote = e.1)
    (hgrace : ∀ s ∈ cm.segments, ∀ e ∈ s, e.1 = p →
      e.2.firstSeen + cm.gracePeriod > now) :
    ∀ c ∈ getConnsToClose cm now, c.remote ≠ p := by
  intro c hc hrem
  obtain ⟨s, hs, e, he, hcc, -, hg⟩ := getConnsToClose_src hc
  rw [List.mem_map] at hcc
  obtain ⟨ce, hce, rfl⟩ := hcc
  have hkey : ce.1.remote = e.1 := hconn s hs e he ce hce
  rw [hrem] at hkey
  exact hg (hgrace s hs e he hkey.symm)

/-- C5 witness: with peer `[0]` freshly seen at time 9 under grace 100, the
victim `(remote [1], id 7)` selected at time 10 is not a connection of
`[0]`. -/
theorem C5_grace_never_victim_witness :
    (⟨[1], 7⟩ : Conn).remote ≠ [0] :=
  C5_grace_never_victim
    ⟨1, 1, 100, 3,
      [[([0], ⟨[0], [], [], 0, [(⟨[0], 0⟩, 0)], 9⟩),
        ([1], ⟨[1], [], [], 5, [(⟨[1], 7⟩, 0)], -200⟩)]],
      []⟩ 10 [0]
    (by decide) (by decide) ⟨[1], 7⟩ (by decide)

/-! ## C10: shard selection is partial on the empty identifier -/

/-- C10: every shard-addressed operation indexes the 256-element shard
array via `p[len(p)-1]`; with 256 shards this succeeds exactly when the
peer identifier is non-empty, and the empty identifier's lookup is the
out-of-bounds access (`none`). -/
theorem C10_segmentsGet_total_iff_nonempty (segs : List Segment) (p : PeerId)
    (h256 : segs.length = 256) :
    (segmentsGet segs p).isSome ↔ p ≠ [] := by
  constructor
  · intro h hp
    subst hp
    simp [segmentsGet] at h
  · intro hp
    obtain ⟨b, hb⟩ := Option.isSome_iff_exists.mp (List.getLast?_isSome.mpr hp)
    have hlt : b % 256 < segs.length := by
      rw [h256]; exact Nat.mod_lt _ (by norm_num)
    simp only [segmentsGet, hb]
    rw [List.get?_eq_get hlt]
    rfl

/-- C10 witness: with the 256 shards of a fresh manager, identifier `[5]`
resolves to a shard and the empty identifier does not. -/
theorem C10_segmentsGet_witness :
    ((segmentsGet (List.replicate 256 ([] : Segment)) [5]).isSome ↔ ([5] : PeerId) ≠ []) ∧
    ((segmentsGet (List.replicate 256 ([] : Segment)) []).isSome ↔ ([] : PeerId) ≠ []) :=
  ⟨C10_segmentsGet_total_iff_nonempty _ [5] (List.length_replicate 256 _),
   C10_segmentsGet_total_iff_nonempty _ [] (List.length_replicate 256 _)⟩

end ConnMgr
